import Mathlib

/-!
Verification development for the leveling-text parser of `update.py`
(lolstaticdata).  The source's parser is shallowly embedded here: Python
strings become `List Char`, the regular expressions `rattribute`, `rflat`,
`rscaling` and `rnumber` become executable scanners with the same
match semantics (leftmost, non-overlapping, greedy with backtracking where
the pattern requires it), `eval` of a numeric literal becomes an exact
rational parser, and Python exceptions (`assert` failures, `IndexError`,
`ValueError`, `UnparsableLeveling`) become an explicit error type.
Numeric values are modelled as exact rationals; the source computes with
Python int or float, and every concrete instance checked below is exactly
representable in both.
-/

/-- Characters the Python `str.strip()` and the regex class `\s` treat as
whitespace (ASCII whitespace, the C1 separators, NEL and NBSP). -/
def isSpace (c : Char) : Bool :=
  c = ' ' || (9 ≤ c.toNat && c.toNat ≤ 13) || (28 ≤ c.toNat && c.toNat ≤ 31)
    || c.toNat = 133 || c.toNat = 160

/-- The apostrophe character, written by code point. -/
def apos : Char := Char.ofNat 39

/-- The newline character (the only character the regex `.` refuses). -/
def nl : Char := Char.ofNat 10

/-- The non-breaking space collapsed by `_preparse_format`. -/
def nbsp : Char := Char.ofNat 160

/-- Embedding of Python `str.lstrip()`. -/
def lstrip (l : List Char) : List Char := l.dropWhile (fun c => isSpace c)

/-- Embedding of Python `str.rstrip()`, written recursively so that proofs can peel one
character at a time. -/
def rstrip : List Char → List Char
  | [] => []
  | c :: rest =>
    match rstrip rest with
    | [] => if isSpace c then [] else [c]
    | r => c :: r

/-- Embedding of Python `str.strip()`. -/
def strip (l : List Char) : List Char := rstrip (lstrip l)

/-- Index of the first occurrence of `needle` as a contiguous substring of
`hay` (Python `str.index` / `str.find`); `none` when absent. -/
def indexOfSub (needle : List Char) : List Char → Option Nat
  | [] => if needle = [] then some 0 else none
  | c :: rest =>
    if needle.isPrefixOf (c :: rest) then some 0
    else (indexOfSub needle rest).map (· + 1)

/-- Embedding of Python `needle in hay` on strings. -/
def containsSub (needle hay : List Char) : Bool := (indexOfSub needle hay).isSome

/-- Worker for `replaceAll`: replaces non-overlapping occurrences left to
right; the counter carries how many already-consumed characters remain to
be skipped. -/
def goReplace (needle rep : List Char) : List Char → Nat → List Char
  | [], _ => []
  | _ :: rest, Nat.succ k => goReplace needle rep rest k
  | c :: rest, 0 =>
    if needle.isPrefixOf (c :: rest) then
      rep ++ goReplace needle rep rest (needle.length - 1)
    else
      c :: goReplace needle rep rest 0

/-- Embedding of Python `hay.replace(needle, rep)` for a non-empty `needle` (every call
site passes a non-empty literal; an empty needle returns `hay` unchanged). -/
def replaceAll (needle rep hay : List Char) : List Char :=
  match needle with
  | [] => hay
  | _ :: _ => goReplace needle rep hay 0

/-- Worker for `splitOn`: accumulates the current piece in reverse; the
counter skips separator characters already consumed. -/
def goSplit (sep : List Char) : List Char → List Char → Nat → List (List Char)
  | acc, [], _ => [acc.reverse]
  | acc, _ :: rest, Nat.succ k => goSplit sep acc rest k
  | acc, c :: rest, 0 =>
    if sep.isPrefixOf (c :: rest) then
      acc.reverse :: goSplit sep [] rest (sep.length - 1)
    else
      goSplit sep (c :: acc) rest 0

/-- Embedding of Python `hay.split(sep)` for a non-empty separator. -/
def splitOn (sep hay : List Char) : List (List Char) :=
  match sep with
  | [] => [hay]
  | _ :: _ => goSplit sep [] hay 0

/-- Embedding of Python `hay.count(sep)` for a non-empty separator: the number of
non-overlapping occurrences, which equals `len(hay.split(sep)) - 1`. -/
def countSub (sep hay : List Char) : Nat := (splitOn sep hay).length - 1

mutual
/-- All matches of the regex `rnumber = (\d+\.?\d*)` in the source string,
left to right and non-overlapping, exactly as `re.findall` produces them:
a maximal digit run, one optional dot, then a maximal digit run. -/
def findNumbers : List Char → List (List Char)
  | [] => []
  | c :: rest => if c.isDigit then inNumber [c] false rest else findNumbers rest

/-- State inside a number match: `acc` holds the matched characters in
reverse, `seenDot` records whether the optional dot was consumed. -/
def inNumber (acc : List Char) (seenDot : Bool) : List Char → List (List Char)
  | [] => [acc.reverse]
  | c :: rest =>
    if c.isDigit then inNumber (c :: acc) seenDot rest
    else if c = '.' && !seenDot then inNumber (c :: acc) true rest
    else acc.reverse :: findNumbers rest
end

/-- Numeric value of a digit string. -/
def digitsToNat (l : List Char) : Nat :=
  l.foldl (fun n c => 10 * n + (c.toNat - 48)) 0

/-- Embedding of Python `eval` applied to one `rnumber` match, as an exact rational.
A match with a dot is a float literal (always valid); a match without a
dot is an integer literal, which Python rejects when it has a leading
zero and is not all zeros (`eval("012")` raises `SyntaxError`). -/
def evalNum (l : List Char) : Option ℚ :=
  if l.contains '.' then
    let ip := l.takeWhile (fun c => c ≠ '.')
    let fp := (l.dropWhile (fun c => c ≠ '.')).drop 1
    some ((digitsToNat ip : ℚ) + (digitsToNat fp : ℚ) / ((10 : ℚ) ^ fp.length))
  else
    if l.head? = some '0' && l.any (fun c => c ≠ '0') then none
    else some ((digitsToNat l : ℚ))

/-- Body search for the lazy tail `.+?\)` of `rscaling`: splits at the first
close parenthesis, failing on a newline (which `.` cannot match) or the end
of the string. -/
def findCloseParen : List Char → Option (List Char × List Char)
  | [] => none
  | c :: rest =>
    if c = ')' then some ([], rest)
    else if c = nl then none
    else (findCloseParen rest).map (fun p => (c :: p.1, p.2))

/-- Match attempt of `rscaling = (\(\+.+?\))` at the current position:
a literal `(+`, at least one non-newline character, then — lazily — the
first close parenthesis. Returns the full match and the rest of the
string. -/
def matchScalingAt : List Char → Option (List Char × List Char)
  | a :: b :: c :: rest =>
    if a = '(' ∧ b = '+' ∧ c ≠ nl then
      match findCloseParen rest with
      | some (p, r) => some ('(' :: '+' :: c :: (p ++ [')']), r)
      | none => none
    else none
  | _ => none

/-- Worker for `findScalings`; the counter skips characters of the match
just emitted (matches are non-overlapping). -/
def goScalings : List Char → Nat → List (List Char)
  | [], _ => []
  | _ :: rest, Nat.succ k => goScalings rest k
  | c :: rest, 0 =>
    match matchScalingAt (c :: rest) with
    | some (m, _) => m :: goScalings rest (m.length - 1)
    | none => goScalings rest 0

/-- Matches of `re.compile(rscaling).findall(split)`: every parenthesized
plus-prefixed fragment, left to right. -/
def findScalings (s : List Char) : List (List Char) := goScalings s 0

/-- Worker for `findFlats`; the counter skips characters of the match just
emitted. -/
def goFlats : List Char → Nat → List (List Char)
  | [], _ => []
  | _ :: rest, Nat.succ k => goFlats rest k
  | c :: rest, 0 =>
    match rest with
    | sp :: c2 :: r2 =>
      if c = ':' && sp = ' ' && c2 ≠ nl then
        let grp := c2 :: r2.takeWhile (fun x => x ≠ nl)
        grp :: goFlats rest (1 + grp.length)
      else goFlats rest 0
    | _ => goFlats rest 0

/-- Matches of `re.compile(rflat).findall(split)` with `rflat = ": (.+)"`: for each
match the captured group is everything after the colon-space up to the end
of the line (greedy `.+`). -/
def findFlats (s : List Char) : List (List Char) := goFlats s 0

/-- Membership in the first character class `[A-Za-z'\-\.0-9]` of
`rattribute`. -/
def isLabelChar (c : Char) : Bool :=
  c.isAlpha || c = apos || c = '-' || c = '.' || c.isDigit

/-- Membership in the second character class `[\s\-]` of `rattribute`. -/
def isLabelSep (c : Char) : Bool := isSpace c || c = '-'

/-- Backtracking search for the group `(?:[A-Za-z'\-\.0-9]+[\s\-]*)+` of
`rattribute` followed by `:`. Returns the largest number of class
characters that can be consumed before a colon; the greedy group prefers
the longest such run, and any run of class characters beginning with a
first-class character is decomposable into the repetition. -/
def labelSearch : List Char → Option Nat
  | [] => none
  | c :: rest =>
    if isLabelChar c || isLabelSep c then
      match labelSearch rest with
      | some n => some (n + 1)
      | none => if rest.head? = some ':' then some 1 else none
    else none

/-- Match attempt of `rattribute` at the current position: the group must
start with a first-class character, then `labelSearch` finds the label
body, and the full match appends the colon. -/
def matchLabelAt (s : List Char) : Option (List Char) :=
  match s with
  | [] => none
  | c :: _ =>
    if isLabelChar c then
      (labelSearch s).map (fun n => s.take n ++ [':'])
    else none

/-- Worker for `findLabels`; the counter skips characters of the match
just emitted. -/
def goLabels : List Char → Nat → List (List Char)
  | [], _ => []
  | _ :: rest, Nat.succ k => goLabels rest k
  | c :: rest, 0 =>
    match matchLabelAt (c :: rest) with
    | some m => m :: goLabels rest (m.length - 1)
    | none => goLabels rest 0

/-- Matches of `re.compile(rattribute).findall(string)`: every label occurrence
(trailing colon included), left to right. -/
def findLabels (s : List Char) : List (List Char) := goLabels s 0

/-- Classified failures of the parser. `assert` failures in the source are
classified by what the assert checks: a numeric literal that is not a
prefix of its sub-fragment is `malformedValue`; a wrong count of numeric
literals (including the Siphoning Strike fallback assert) is
`ambiguousValue`; mixed non-empty units are `inconsistentUnits`; a literal
Python `eval` rejects is `evalError`; indexing an empty fragment is
`emptyFragment`; a failing `str.index` is `valueNotFound`; the two
hard-coded unparsable strings raise `unparsable` (`UnparsableLeveling`). -/
inductive Err where
  | unparsable
  | malformedValue
  | ambiguousValue
  | inconsistentUnits
  | evalError
  | emptyFragment
  | valueNotFound
deriving DecidableEq

/-- A parsed per-level value: a number, or — for the documented Siphoning
Strike special case — the literal sub-fragment string. -/
inductive Val where
  | num : ℚ → Val
  | str : List Char → Val
deriving DecidableEq

/-- The `AttributeModifier` dict of the source: sign character, per-level
values, per-level units. -/
structure AttributeModifier where
  sign : Char
  values : List Val
  units : List (List Char)
deriving DecidableEq

/-- The `Attribute` dict of the source: label name and modifier list. -/
structure Attribute where
  name : List Char
  modifiers : List AttributeModifier
deriving DecidableEq

deriving instance DecidableEq for Except

/-- The literal phrase accepted by the Siphoning Strike special case. -/
def siphoningStr : List Char := "Siphoning Strike stacks".toList

/-- One iteration of the value loop of `Attribute._parse_scaling`: find
the numeric literals of a sub-fragment; with none, only the Siphoning
Strike phrase is accepted (value is the literal string, unit empty); with
at least one, the first literal must be a prefix of the sub-fragment or of
it after a leading `[ ` (the documented Vi exception), the unit is
everything past the literal, and the literal is evaluated. -/
def parse_scaling_value (value : List Char) : Except Err (Val × List Char) :=
  match findNumbers value with
  | [] =>
    if value = siphoningStr then .ok (.str value, [])
    else .error .ambiguousValue
  | v :: _ =>
    if v.isPrefixOf value || (('[' :: ' ' :: v).isPrefixOf value) then
      match evalNum v with
      | some q => .ok (.num q, value.drop v.length)
      | none => .error .evalError
    else .error .malformedValue

/-- Embedding of `Attribute._parse_scaling`: strip enclosing parentheses, read the sign
character, split the rest on `" / "` (or replicate it `numLevels` times),
and run the value loop. No unit unification is performed on this path. -/
def parse_scaling (scaling : List Char) (numLevels : Nat) :
    Except Err AttributeModifier :=
  let scaling :=
    if scaling.head? = some '(' ∧ scaling.getLast? = some ')' then
      strip ((scaling.drop 1).dropLast)
    else scaling
  match scaling with
  | [] => .error .emptyFragment
  | m :: rest =>
    let body := strip rest
    let split :=
      if containsSub (" / ".toList) body then splitOn (" / ".toList) body
      else List.replicate numLevels body
    match split.mapM parse_scaling_value with
    | .error e => .error e
    | .ok pairs => .ok ⟨m, pairs.map (·.1), pairs.map (·.2)⟩

/-- One iteration of the value loop of `Attribute._parse_flat`: the
sub-fragment must contain exactly one numeric literal, which must be a
prefix of it; the unit is everything past the literal. -/
def parse_flat_value (value : List Char) : Except Err (ℚ × List Char) :=
  match findNumbers value with
  | [v] =>
    if v.isPrefixOf value then
      match evalNum v with
      | some q => .ok (q, value.drop v.length)
      | none => .error .evalError
    else .error .malformedValue
  | _ => .error .ambiguousValue

/-- Unit unification at the end of the literal-list sub-case of
`Attribute._parse_flat`: collect the distinct non-empty units; none means
the units stay as extracted (all empty), exactly one means every position
receives it, and two or more fail. -/
def unify_units (values : List Val) (units : List (List Char)) :
    Except Err AttributeModifier :=
  match ((units.filter (fun u => u ≠ [])).dedup : List (List Char)) with
  | [] => .ok ⟨'+', values, units⟩
  | [u] => .ok ⟨'+', values, List.replicate units.length u⟩
  | _ => .error .inconsistentUnits

/-- The interpolation marker of the by-level sub-case. -/
def basedOnLevel : List Char := "(based on level)".toList

/-- The interpolation marker of the by-cast sub-case. -/
def basedOnCasts : List Char := "(based on casts)".toList

/-- The fixed unit label of the by-level sub-case. -/
def byLevel : List Char := "by level".toList

/-- The fixed unit label of the by-cast sub-case. -/
def byCast : List Char := "by cast".toList

/-- The interpolated sub-case of `Attribute._parse_flat`, applied to the
span with the marker phrase already removed and stripped: exactly two
numeric literals must remain, interpreted as a minimum and a maximum, and
the modifier carries the 18 values `min + i * ((max - min) / 17)` with the
fixed unit repeated and the sign `+`. -/
def parse_flat_interp (unit flat : List Char) : Except Err AttributeModifier :=
  match findNumbers flat with
  | [a, b] =>
    match evalNum a, evalNum b with
    | some minn, some maxx =>
      .ok ⟨'+',
        (List.range 18).map (fun i => .num (minn + (i : ℚ) * ((maxx - minn) / 17))),
        List.replicate 18 unit⟩
    | _, _ => .error .evalError
  | _ => .error .ambiguousValue

/-- The sub-fragment list of the literal-list sub-case of
`Attribute._parse_flat`: strip enclosing parentheses, then split on
`" / "`, or replicate `numLevels` times when no separator occurs. -/
def flat_pieces (flat : List Char) (numLevels : Nat) : List (List Char) :=
  let flat :=
    if flat.head? = some '(' ∧ flat.getLast? = some ')' then
      strip ((flat.drop 1).dropLast)
    else flat
  if containsSub (" / ".toList) flat then splitOn (" / ".toList) flat
  else List.replicate numLevels flat

/-- Embedding of `Attribute._parse_flat`: with a `(based on level)` or `(based on
casts)` marker (level wins when both occur) the marker is removed and the
interpolated sub-case runs; otherwise the literal-list sub-case runs the
value loop over the sub-fragments and unifies units. Both sub-cases
produce the sign `+`. -/
def parse_flat (flat : List Char) (numLevels : Nat) :
    Except Err AttributeModifier :=
  if containsSub basedOnLevel flat then
    parse_flat_interp byLevel (strip (replaceAll basedOnLevel [] flat))
  else if containsSub basedOnCasts flat then
    parse_flat_interp byCast (strip (replaceAll basedOnCasts [] flat))
  else
    match (flat_pieces flat numLevels).mapM parse_flat_value with
    | .error e => .error e
    | .ok pairs => unify_units (pairs.map (fun p => .num p.1)) (pairs.map (·.2))

/-- Embedding of `Attribute.from_string`: find every scaling fragment, remove each from
the span (stripping after every removal), parse the stripped scaling
fragments; then collect the flat fragments after `": "` (each stripped and
split on `" + "`), falling back — when none were found — to the three bare
forms (a five-value `" / "` list, a three-value `" / "` list, or a single
number equal to the whole span); parse those through the flat path.
Modifiers are the scaling-derived ones first, then the flat-derived ones.
No error is raised when both lists are empty. -/
def from_string (name split : List Char) : Except Err Attribute :=
  let scalings := findScalings split
  let split := scalings.foldl (fun s sc => strip (replaceAll sc [] s)) split
  let scalings := scalings.map strip
  match scalings.mapM (fun sc => parse_scaling sc 5) with
  | .error e => .error e
  | .ok scalMods =>
    let flats := ((findFlats split).map
      (fun x => splitOn (" + ".toList) (strip x))).flatten
    let flats :=
      if flats = [] then
        let numbers := findNumbers split
        if countSub (" / ".toList) split = 4 && numbers.length = 5 then [split]
        else if countSub (" / ".toList) split = 2 && numbers.length = 3 then [split]
        else if numbers.length = 1 && numbers.head? = some split then [split]
        else []
      else flats
    match flats.mapM (fun f => parse_flat f 5) with
    | .error e => .error e
    | .ok flatMods => .ok ⟨name, scalMods ++ flatMods⟩

/-- First hard-coded unparsable full string of `_match_and_split`
(Nidalee's Pounce; note the double space and the apostrophe). -/
def unparsable1 : List Char :=
  "Pounce scales with  Aspect of the Cougar".toList ++ [apos] ++ "s rank".toList

/-- Second hard-coded unparsable full string of `_match_and_split`. -/
def unparsable2 : List Char :=
  "Cougar form".toList ++ [apos] ++
    "s abilities rank up when  Aspect of the Cougar does".toList

/-- The malformed Heimerdinger split list that `_match_and_split`
recognizes verbatim. -/
def heimerBad : List (List Char) :=
  ["Initial Rocket Magic Damage: 135 / 180 / 225 (+ 45% AP) 2-5".toList,
   "Rocket Magic Damage: 32 / 45 / 58 (+ 12% AP) 6-20".toList,
   "0 Rocket Magic Damage: 16 / 22.5 / 29 (+ 6% AP)".toList,
   "Total Magic Damage: 503 / 697.5 / 892 (+ 183% AP)".toList,
   ") Total Minion Magic Damage: 2700 / 3600 / 4500 (+ 900% AP)".toList]

/-- The corrected Heimerdinger split list substituted for `heimerBad`. -/
def heimerGood : List (List Char) :=
  ["Initial Rocket Magic Damage: 135 / 180 / 225 (+ 45% AP)".toList,
   "2-5 Rocket Magic Damage: 32 / 45 / 58 (+ 12% AP)".toList,
   "6-20 Rocket Magic Damage: 16 / 22.5 / 29 (+ 6% AP)".toList,
   "Total Magic Damage: 503 / 697.5 / 892 (+ 183% AP)".toList,
   "Total Minion Magic Damage: 2700 / 3600 / 4500 (+ 900% AP)".toList]

/-- The split loop of `_match_and_split`: for each label after the first,
skip the length of the previous label, find the next label's first
occurrence in the remainder (`str.index`; its `ValueError` is `none`),
emit the stripped text up to that point, and continue from it; the final
remainder is emitted unstripped. -/
def splitLoop (prev cur : List Char) : List (List Char) → Option (List (List Char))
  | [] => some [cur]
  | m :: rest =>
    match indexOfSub m (cur.drop prev.length) with
    | none => none
    | some start =>
      (splitLoop m (cur.drop (prev.length + start)) rest).map
        (fun tail => strip (cur.take (prev.length + start)) :: tail)

/-- Embedding of `Ability._match_and_split`: reject the two hard-coded unparsable
strings, find every label (dropping the trailing colon), run the split
loop, and apply the literal Heimerdinger fix-up when the splits equal the
known malformed list. With no label at all the result is an empty label
list and the whole string as the single split. -/
def match_and_split (s : List Char) :
    Except Err (List (List Char) × List (List Char)) :=
  if s = unparsable1 then .error .unparsable
  else if s = unparsable2 then .error .unparsable
  else
    let ms := (findLabels s).map (fun m => m.dropLast)
    match ms with
    | [] => .ok ([], [s])
    | m0 :: rest =>
      match splitLoop m0 s rest with
      | none => .error .valueNotFound
      | some splits =>
        .ok (m0 :: rest, if splits = heimerBad then heimerGood else splits)

/-- The single literal removal phrase of `_split_leveling` (Ekko's
Chronobreak). -/
def removal1 : List Char :=
  "(increased by 3% per 1% of health lost in the past 4 seconds)".toList

/-- The removal step at the head of `_split_leveling`. -/
def apply_removals (l : List Char) : List Char :=
  if containsSub removal1 l then strip (replaceAll removal1 [] l) else l

/-- Embedding of `Ability._split_leveling`: apply the removal phrase, segment, and run
`from_string` over each (label, split) pair (`zip` truncates to the
shorter list, so a label surplus or deficit is silently dropped). -/
def split_leveling (leveling : List Char) : Except Err (List Attribute) :=
  let leveling := apply_removals leveling
  match match_and_split leveling with
  | .error e => .error e
  | .ok (ms, sps) => (ms.zip sps).mapM (fun p => from_string p.1 p.2)

/-- The index sampling `[x[0], x[2], x[4]]` that `_parse_leveling` applies
to a list of exactly five entries, leaving any other length untouched. -/
def sample135 {α : Type} (l : List α) : List α :=
  match l with
  | [a, _, c, _, e] => [a, c, e]
  | l => l

/-- The per-modifier ultimate reduction of `_parse_leveling`: values and
units are sampled independently, each only when its length is exactly 5. -/
def reduce_modifier (m : AttributeModifier) : AttributeModifier :=
  ⟨m.sign, sample135 m.values, sample135 m.units⟩

/-- The whole-result ultimate reduction of `_parse_leveling` for the `R`
skill. -/
def reduce_ultimate (rs : List Attribute) : List Attribute :=
  rs.map (fun a => ⟨a.name, a.modifiers.map reduce_modifier⟩)

/-- The text normalization of `_preparse_format`, modelled after the HTML
of the wiki page has been flattened to text (the markup walk itself is
fetch-side plumbing outside this parser): strip, then collapse the
non-breaking space to an ordinary space. -/
def preparse (l : List Char) : List Char := replaceAll [nbsp] [' '] (strip l)

/-- Embedding of `Ability._parse_leveling`: normalize, split into attributes, and for
the ultimate skill `R` sample every 5-length values/units array down to
ranks 1/3/5. -/
def parse_leveling (leveling : List Char) (skill : List Char) :
    Except Err (List Attribute) :=
  match split_leveling (preparse leveling) with
  | .error e => .error e
  | .ok results =>
    .ok (if skill = ['R'] then reduce_ultimate results else results)

/-- Any list whose members all equal `u`, with `u` a member, dedups to the
singleton `[u]`. -/
theorem dedup_all_eq {α : Type} [DecidableEq α] (u : α) :
    ∀ l : List α, u ∈ l → (∀ x ∈ l, x = u) → l.dedup = [u] := by
  intro l
  induction l with
  | nil => intro h; cases h
  | cons x xs ih =>
    intro _ hall
    have hx : x = u := hall x (List.mem_cons_self x xs)
    subst hx
    by_cases hu : x ∈ xs
    · rw [List.dedup_cons_of_mem hu]
      exact ih hu (fun y hy => hall y (List.mem_cons_of_mem _ hy))
    · rw [List.dedup_cons_of_not_mem hu]
      cases xs with
      | nil => simp
      | cons y ys =>
        have hy : y = x := hall y (List.mem_cons_of_mem _ (List.mem_cons_self y ys))
        exact absurd (hy ▸ List.mem_cons_self y ys) hu

/-- A successful unit unification always reports the sign `+`. -/
theorem unify_units_sign (vs : List Val) (us : List (List Char))
    (m : AttributeModifier) (h : unify_units vs us = .ok m) : m.sign = '+' := by
  unfold unify_units at h
  split at h
  · injection h with h; subst h; rfl
  · injection h with h; subst h; rfl
  · exact Except.noConfusion h

/-- A successful unit unification leaves the values untouched. -/
theorem unify_units_values (vs : List Val) (us : List (List Char))
    (m : AttributeModifier) (h : unify_units vs us = .ok m) : m.values = vs := by
  unfold unify_units at h
  split at h
  · injection h with h; subst h; rfl
  · injection h with h; subst h; rfl
  · exact Except.noConfusion h

/-- After a successful unit unification every position carries the same
unit. -/
theorem unify_units_all_eq (vs : List Val) (us : List (List Char))
    (m : AttributeModifier) (h : unify_units vs us = .ok m) :
    ∀ u ∈ m.units, ∀ v ∈ m.units, u = v := by
  unfold unify_units at h
  split at h
  · rename_i hd
    injection h with h
    subst h
    have hfil : us.filter (fun u => u ≠ []) = [] := (List.dedup_eq_nil _).mp hd
    intro u hu v hv
    have h1 : u = [] := by
      by_contra hne
      have : u ∈ us.filter (fun u => u ≠ []) := by
        simp [List.mem_filter, hu, hne]
      rw [hfil] at this
      cases this
    have h2 : v = [] := by
      by_contra hne
      have : v ∈ us.filter (fun u => u ≠ []) := by
        simp [List.mem_filter, hv, hne]
      rw [hfil] at this
      cases this
    rw [h1, h2]
  · injection h with h
    subst h
    intro u hu v hv
    rw [List.eq_of_mem_replicate hu, List.eq_of_mem_replicate hv]
  · exact Except.noConfusion h

/-- A successful interpolated sub-case reports sign `+` and the fixed unit
at all 18 positions. -/
theorem parse_flat_interp_shape (unit flat : List Char) (m : AttributeModifier)
    (h : parse_flat_interp unit flat = .ok m) :
    m.sign = '+' ∧ m.units = List.replicate 18 unit := by
  unfold parse_flat_interp at h
  split at h
  · split at h
    · injection h with h; subst h; exact ⟨rfl, rfl⟩
    · exact Except.noConfusion h
  · exact Except.noConfusion h

/-- The five-element sampling keeps lists of any other length untouched. -/
theorem sample135_of_ne_five {α : Type} (l : List α) (h : l.length ≠ 5) :
    sample135 l = l := by
  unfold sample135
  split
  · rename_i a b c d e
    simp at h
  · rfl

/-- The five-element sampling is a no-op on its own output. -/
theorem sample135_idem {α : Type} (l : List α) :
    sample135 (sample135 l) = sample135 l := by
  match l with
  | [] => rfl
  | [a] => rfl
  | [a, b] => rfl
  | [a, b, c] => rfl
  | [a, b, c, d] => rfl
  | [a, b, c, d, e] => rfl
  | a :: b :: c :: d :: e :: f :: t => rfl

/-- The per-modifier ultimate reduction is idempotent. -/
theorem reduce_modifier_idem (m : AttributeModifier) :
    reduce_modifier (reduce_modifier m) = reduce_modifier m := by
  cases m
  simp [reduce_modifier, sample135_idem]

/-- The whole-result ultimate reduction is idempotent. -/
theorem reduce_ultimate_idem (rs : List Attribute) :
    reduce_ultimate (reduce_ultimate rs) = reduce_ultimate rs := by
  unfold reduce_ultimate
  rw [List.map_map]
  apply List.map_congr_left
  intro a _
  cases a
  simp [Function.comp, List.map_map, reduce_modifier_idem]

/-- C2. With `ability_kind = R`, every modifier whose `values` array
(respectively `units` array) has exactly 5 entries has it replaced by the
entries at indices 0, 2, 4; arrays of any other length are left untouched;
and applying the reduction a second time to the result of
`parse_leveling` changes nothing. -/
theorem claim_C2 :
    (∀ (m : AttributeModifier) (a b c d e : Val), m.values = [a, b, c, d, e] →
        (reduce_modifier m).values = [a, c, e])
  ∧ (∀ m : AttributeModifier, m.values.length ≠ 5 →
        (reduce_modifier m).values = m.values)
  ∧ (∀ (m : AttributeModifier) (a b c d e : List Char), m.units = [a, b, c, d, e] →
        (reduce_modifier m).units = [a, c, e])
  ∧ (∀ m : AttributeModifier, m.units.length ≠ 5 →
        (reduce_modifier m).units = m.units)
  ∧ (∀ (text : List Char) (rs : List Attribute),
        parse_leveling text (['R']) = .ok rs → reduce_ultimate rs = rs) := by
  refine ⟨?_, ?_, ?_, ?_, ?_⟩
  · intro m a b c d e h
    simp [reduce_modifier, h, sample135]
  · intro m h
    simp [reduce_modifier, sample135_of_ne_five _ h]
  · intro m a b c d e h
    simp [reduce_modifier, h, sample135]
  · intro m h
    simp [reduce_modifier, sample135_of_ne_five _ h]
  · intro text rs h
    unfold parse_leveling at h
    split at h
    · exact Except.noConfusion h
    · simp only [if_pos rfl, Except.ok.injEq] at h
      subst h
      exact reduce_ultimate_idem _

/-- C2 witness: a concrete ultimate parse whose five flat values collapse
to ranks 1/3/5, on which the reduction is then a no-op. -/
theorem claim_C2_witness :
    parse_leveling ("Damage: 1 / 2 / 3 / 4 / 5".toList) (['R']) =
      .ok [⟨"Damage".toList, [⟨'+', [.num 1, .num 3, .num 5], [[], [], []]⟩]⟩] ∧
    reduce_ultimate [⟨"Damage".toList, [⟨'+', [.num 1, .num 3, .num 5], [[], [], []]⟩]⟩] =
      [⟨"Damage".toList, [⟨'+', [.num 1, .num 3, .num 5], [[], [], []]⟩]⟩] :=
  ⟨by decide, claim_C2.2.2.2.2 ("Damage: 1 / 2 / 3 / 4 / 5".toList) _ (by decide)⟩

/-- C10. Every modifier produced by the flat construction path — the
interpolated sub-case and the literal-list sub-case alike — carries the
sign `+`; the flat path can never produce a `-`-signed modifier. -/
theorem claim_C10 : ∀ (flat : List Char) (n : Nat) (m : AttributeModifier),
    parse_flat flat n = .ok m → m.sign = '+' := by
  intro flat n m h
  unfold parse_flat at h
  split at h
  · exact (parse_flat_interp_shape _ _ _ h).1
  · split at h
    · exact (parse_flat_interp_shape _ _ _ h).1
    · split at h
      · exact Except.noConfusion h
      · exact unify_units_sign _ _ _ h

/-- C10 witness: a bare flat number parses with sign `+`. -/
theorem claim_C10_witness :
    parse_flat ("5".toList) 5 =
      .ok ⟨'+', List.replicate 5 (.num 5), List.replicate 5 []⟩ ∧
    (⟨'+', List.replicate 5 (.num 5), List.replicate 5 []⟩ : AttributeModifier).sign = '+' :=
  ⟨by decide, claim_C10 ("5".toList) 5 _ (by decide)⟩

/-- C4 counterexample: the scaling construction path accepts two distinct
non-empty units without any error and without collapsing them, so the
claimed invariant does not hold for "either construction path". -/
theorem claim_C4_counterexample :
    parse_scaling ("(+ 1% / 2 AD)".toList) 5 =
      .ok ⟨'+', [.num 1, .num 2], ["%".toList, " AD".toList]⟩ ∧
    ("%".toList : List Char) ≠ [] ∧ (" AD".toList : List Char) ≠ [] ∧
    ("%".toList : List Char) ≠ " AD".toList := by decide

/-- C4 amended: only in the flat construction path are units unified —
after a successful flat parse all positions carry one identical unit
(empty positions receive the unified unit), a single consistent non-empty
unit is collapsed onto every position, and two distinct non-empty units
are an error; the scaling path performs no unification and keeps the
per-position units exactly as extracted. -/
theorem claim_C4_amended :
    (∀ (flat : List Char) (n : Nat) (m : AttributeModifier),
       parse_flat flat n = .ok m → ∀ u ∈ m.units, ∀ v ∈ m.units, u = v)
  ∧ (∀ (vs : List Val) (us : List (List Char)) (u : List Char),
       u ∈ us → u ≠ [] → (∀ u' ∈ us, u' ≠ [] → u' = u) →
       unify_units vs us = .ok ⟨'+', vs, List.replicate us.length u⟩)
  ∧ (∀ (vs : List Val) (us : List (List Char)) (u u' : List Char),
       u ∈ us → u' ∈ us → u ≠ [] → u' ≠ [] → u ≠ u' →
       unify_units vs us = .error .inconsistentUnits) := by
  refine ⟨?_, ?_, ?_⟩
  · intro flat n m h
    unfold parse_flat at h
    split at h
    · intro u hu v hv
      rw [(parse_flat_interp_shape _ _ _ h).2] at hu hv
      rw [List.eq_of_mem_replicate hu, List.eq_of_mem_replicate hv]
    · split at h
      · intro u hu v hv
        rw [(parse_flat_interp_shape _ _ _ h).2] at hu hv
        rw [List.eq_of_mem_replicate hu, List.eq_of_mem_replicate hv]
      · split at h
        · exact Except.noConfusion h
        · exact unify_units_all_eq _ _ _ h
  · intro vs us u hu hne hall
    have hmemf : u ∈ us.filter (fun x => x ≠ []) := by
      simp [List.mem_filter, hu, hne]
    have hallf : ∀ x ∈ us.filter (fun x => x ≠ []), x = u := by
      intro x hx
      rw [List.mem_filter] at hx
      exact hall x hx.1 (by simpa using hx.2)
    have hd : (us.filter (fun x => x ≠ [])).dedup = [u] :=
      dedup_all_eq u _ hmemf hallf
    unfold unify_units
    rw [hd]
  · intro vs us u u' hu hu' hne hne' hneq
    have hmemd : u ∈ (us.filter (fun x => x ≠ [])).dedup := by
      rw [List.mem_dedup, List.mem_filter]
      exact ⟨hu, by simpa using hne⟩
    have hmemd' : u' ∈ (us.filter (fun x => x ≠ [])).dedup := by
      rw [List.mem_dedup, List.mem_filter]
      exact ⟨hu', by simpa using hne'⟩
    unfold unify_units
    rcases hd : (us.filter (fun x => x ≠ [])).dedup with _ | ⟨a, _ | ⟨b, t⟩⟩
    · rw [hd] at hmemd
      cases hmemd
    · rw [hd] at hmemd hmemd'
      have h1 : u = a := by simpa using hmemd
      have h2 : u' = a := by simpa using hmemd'
      exact absurd (h1.trans h2.symm) hneq
    · rw [hd]

/-- C4 witness: the spec's own example of units `%`, `%`, empty across
three positions unifies to `%` everywhere. -/
theorem claim_C4_witness :
    (("%".toList ∈ (["%".toList, [], "%".toList] : List (List Char))) ∧
      ("%".toList : List Char) ≠ []) ∧
    unify_units [.num 50, .num 60, .num 70] ["%".toList, [], "%".toList] =
      .ok ⟨'+', [.num 50, .num 60, .num 70],
        List.replicate (["%".toList, ([] : List Char), "%".toList] : List (List Char)).length ("%".toList)⟩ :=
  ⟨⟨by decide, by decide⟩,
    claim_C4_amended.2.1 [.num 50, .num 60, .num 70] ["%".toList, [], "%".toList]
      ("%".toList) (by decide) (by decide) (by decide)⟩

/-- C9. A scaling sub-fragment with at least one numeric literal is
accepted even when it contains several: the first literal becomes the
value and the whole remainder — further numbers included — becomes the
unit; the flat path instead rejects any sub-fragment whose literal count
differs from one. -/
theorem claim_C9 :
    (∀ (value v : List Char) (r : List (List Char)) (q : ℚ),
       findNumbers value = v :: r → v.isPrefixOf value = true → evalNum v = some q →
       parse_scaling_value value = .ok (.num q, value.drop v.length))
  ∧ (∀ value : List Char, 2 ≤ (findNumbers value).length →
       parse_flat_value value = .error .ambiguousValue) := by
  constructor
  · intro value v r q hfind hpre heval
    unfold parse_scaling_value
    rw [hfind]
    simp [hpre, heval]
  · intro value h
    unfold parse_flat_value
    cases hf : findNumbers value with
    | nil => rfl
    | cons a t =>
      cases t with
      | nil =>
        rw [hf] at h
        exact absurd h (by simp)
      | cons b t2 => rfl

/-- C9 witness: the source's own comment example `0.5% per 100 AP`
(written with the integer head `5% per 100 AP` so the evaluation is
decidable): two literals, scaling accepts, flat rejects. -/
theorem claim_C9_witness :
    findNumbers ("5% per 100 AP".toList) = ["5".toList, "100".toList] ∧
    parse_scaling_value ("5% per 100 AP".toList) =
      .ok (.num 5, ("5% per 100 AP".toList).drop ("5".toList).length) ∧
    parse_flat_value ("5% per 100 AP".toList) = .error .ambiguousValue :=
  ⟨by decide,
    claim_C9.1 ("5% per 100 AP".toList) ("5".toList) ["100".toList] 5
      (by decide) (by decide) (by decide),
    claim_C9.2 ("5% per 100 AP".toList) (by decide)⟩

/-- C6 counterexample: in the scaling path the literal `1` of
`[ 1% per 35 ]bonus AD` is not a prefix of the sub-fragment — not even
after leading whitespace — yet extraction succeeds through the documented
`[ `-exception, picking the number out of the middle of the text. -/
theorem claim_C6_counterexample :
    parse_scaling_value ("[ 1% per 35 ]bonus AD".toList) =
      .ok (.num 1, " 1% per 35 ]bonus AD".toList) ∧
    (findNumbers ("[ 1% per 35 ]bonus AD".toList)).head? = some ("1".toList) ∧
    ("1".toList).isPrefixOf (lstrip ("[ 1% per 35 ]bonus AD".toList)) = false := by
  decide

/-- C6 amended: single-value extraction fails with `MalformedValueError`
whenever the extracted literal is not a strict prefix of the sub-fragment
(leading whitespace is not tolerated), except that the scaling path
additionally accepts a sub-fragment beginning with `[ ` followed by the
literal; successful extractions satisfy exactly these prefix conditions. -/
theorem claim_C6_amended :
    (∀ value v : List Char, findNumbers value = [v] →
       v.isPrefixOf value = false →
       parse_flat_value value = .error .malformedValue)
  ∧ (∀ (value v : List Char) (r : List (List Char)), findNumbers value = v :: r →
       v.isPrefixOf value = false →
       (('[' :: ' ' :: v).isPrefixOf value) = false →
       parse_scaling_value value = .error .malformedValue)
  ∧ (∀ (value : List Char) (q : ℚ) (u : List Char),
       parse_flat_value value = .ok (q, u) →
       ∃ v, findNumbers value = [v] ∧ v.isPrefixOf value = true)
  ∧ (∀ (value : List Char) (q : ℚ) (u : List Char),
       parse_scaling_value value = .ok (.num q, u) →
       ∃ (v : List Char) (r : List (List Char)), findNumbers value = v :: r ∧
         (v.isPrefixOf value = true ∨ ('[' :: ' ' :: v).isPrefixOf value = true)) := by
  refine ⟨?_, ?_, ?_, ?_⟩
  · intro value v hfind hpre
    unfold parse_flat_value
    rw [hfind]
    simp [hpre]
  · intro value v r hfind hpre hbr
    unfold parse_scaling_value
    rw [hfind]
    simp [hpre, hbr]
  · intro value q u h
    unfold parse_flat_value at h
    split at h
    · rename_i v heq
      split at h
      · rename_i hpre
        exact ⟨v, heq, hpre⟩
      · exact Except.noConfusion h
    · exact Except.noConfusion h
  · intro value q u h
    unfold parse_scaling_value at h
    split at h
    · rename_i heq
      split at h
      · simp at h
      · exact Except.noConfusion h
    · rename_i v r heq
      split at h
      · rename_i hcond
        exact ⟨v, r, heq, by simpa using hcond⟩
      · exact Except.noConfusion h

/-- C6 witness: a number in the middle of a flat sub-fragment is rejected
as malformed. -/
theorem claim_C6_witness :
    findNumbers ("x5".toList) = ["5".toList] ∧
    ("5".toList).isPrefixOf ("x5".toList) = false ∧
    parse_flat_value ("x5".toList) = .error .malformedValue :=
  ⟨by decide, by decide,
    claim_C6_amended.1 ("x5".toList) ("5".toList) (by decide) (by decide)⟩

/-- C1 counterexample: a span with zero numeric literals and no
interpolation marker for which `from_string` raises nothing and returns an
`Attribute` whose modifiers list is empty. -/
theorem claim_C1_counterexample :
    from_string ("Damage".toList) ("hello".toList) = .ok ⟨"Damage".toList, []⟩ ∧
    findNumbers ("hello".toList) = [] ∧
    containsSub basedOnLevel ("hello".toList) = false ∧
    containsSub basedOnCasts ("hello".toList) = false := by
  decide

/-- C1 amended: for a label span with no scaling-fragment match, no
`": "` flat fragment and zero extractable numeric literals, parsing raises
no error at all and returns an `Attribute` whose modifiers list is empty —
the span is silently discarded rather than rejected. -/
theorem claim_C1_amended : ∀ name s : List Char,
    findScalings s = [] → findFlats s = [] → findNumbers s = [] →
    from_string name s = .ok ⟨name, []⟩ := by
  intro name s hsc hfl hnum
  unfold from_string
  rw [hsc]
  simp only [List.foldl_nil, List.map_nil]
  rw [show (([] : List (List Char)).mapM (fun sc => parse_scaling sc 5)) =
      .ok [] from rfl]
  rw [hfl]
  simp only [List.map_nil, List.flatten_nil, if_pos rfl]
  simp [hnum]
  rfl

/-- C1 witness: the amended claim at the concrete span `hello`. -/
theorem claim_C1_witness :
    (findScalings ("hello".toList) = [] ∧ findFlats ("hello".toList) = [] ∧
      findNumbers ("hello".toList) = []) ∧
    from_string ("Name".toList) ("hello".toList) = .ok ⟨"Name".toList, []⟩ :=
  ⟨⟨by decide, by decide, by decide⟩,
    claim_C1_amended ("Name".toList) ("hello".toList) (by decide) (by decide) (by decide)⟩

/-- C8. A non-empty input in which the label pattern finds nothing — and
which is not one of the two hard-coded unparsable strings — segments into
an empty label list with the whole string as the single residual span, and
the pipeline returns an empty attribute list with no error: the text is
silently discarded. -/
theorem claim_C8 : ∀ s : List Char, s ≠ [] →
    findLabels (apply_removals s) = [] →
    apply_removals s ≠ unparsable1 → apply_removals s ≠ unparsable2 →
    match_and_split (apply_removals s) = .ok ([], [apply_removals s]) ∧
    split_leveling s = .ok [] := by
  intro s _ hlab h1 h2
  have hms : match_and_split (apply_removals s) = .ok ([], [apply_removals s]) := by
    unfold match_and_split
    rw [if_neg h1, if_neg h2, hlab]
    rfl
  refine ⟨hms, ?_⟩
  unfold split_leveling
  dsimp only
  rw [hms]
  rfl

/-- C8 witness: the concrete label-free input `hello world`. -/
theorem claim_C8_witness :
    (("hello world".toList : List Char) ≠ [] ∧
      findLabels (apply_removals ("hello world".toList)) = []) ∧
    split_leveling ("hello world".toList) = .ok [] :=
  ⟨⟨by decide, by decide⟩,
    (claim_C8 ("hello world".toList) (by decide) (by decide) (by decide) (by decide)).2⟩

/-- The by-level interpolation law of `parse_flat`, stated with the
claim's association `min + i * (max - min) / 17`. -/
theorem parse_flat_level_formula (flat : List Char) (n : Nat) (a b : List Char)
    (minn maxx : ℚ) (hlev : containsSub basedOnLevel flat = true)
    (hfind : findNumbers (strip (replaceAll basedOnLevel [] flat)) = [a, b])
    (ha : evalNum a = some minn) (hb : evalNum b = some maxx) :
    parse_flat flat n = .ok ⟨'+',
      (List.range 18).map (fun i => .num (minn + (i : ℚ) * (maxx - minn) / 17)),
      List.replicate 18 byLevel⟩ := by
  unfold parse_flat
  rw [if_pos hlev]
  unfold parse_flat_interp
  rw [hfind]
  dsimp only
  rw [ha, hb]
  dsimp only
  simp [mul_div_assoc]

/-- The by-cast interpolation law of `parse_flat`, likewise. -/
theorem parse_flat_cast_formula (flat : List Char) (n : Nat) (a b : List Char)
    (minn maxx : ℚ) (hlev : containsSub basedOnLevel flat = false)
    (hcast : containsSub basedOnCasts flat = true)
    (hfind : findNumbers (strip (replaceAll basedOnCasts [] flat)) = [a, b])
    (ha : evalNum a = some minn) (hb : evalNum b = some maxx) :
    parse_flat flat n = .ok ⟨'+',
      (List.range 18).map (fun i => .num (minn + (i : ℚ) * (maxx - minn) / 17)),
      List.replicate 18 byCast⟩ := by
  unfold parse_flat
  rw [if_neg (by simp [hlev]), if_pos hcast]
  unfold parse_flat_interp
  rw [hfind]
  dsimp only
  rw [ha, hb]
  dsimp only
  simp [mul_div_assoc]

/-- C3. A flat fragment carrying the `(based on level)` (respectively
`(based on casts)`) marker requires exactly two numeric literals,
interpreted as minimum and maximum, and yields one `+`-signed modifier
whose 18 values follow `value[i] = min + i * (max - min) / 17` with the
unit `by level` (respectively `by cast`) repeated 18 times; in particular
min = 0, max = 17 yields exactly the values 0, 1, ..., 17. -/
theorem claim_C3 :
    (∀ (flat : List Char) (n : Nat) (a b : List Char) (minn maxx : ℚ),
       containsSub basedOnLevel flat = true →
       findNumbers (strip (replaceAll basedOnLevel [] flat)) = [a, b] →
       evalNum a = some minn → evalNum b = some maxx →
       parse_flat flat n = .ok ⟨'+',
         (List.range 18).map (fun i => .num (minn + (i : ℚ) * (maxx - minn) / 17)),
         List.replicate 18 byLevel⟩)
  ∧ (∀ (flat : List Char) (n : Nat) (a b : List Char) (minn maxx : ℚ),
       containsSub basedOnLevel flat = false →
       containsSub basedOnCasts flat = true →
       findNumbers (strip (replaceAll basedOnCasts [] flat)) = [a, b] →
       evalNum a = some minn → evalNum b = some maxx →
       parse_flat flat n = .ok ⟨'+',
         (List.range 18).map (fun i => .num (minn + (i : ℚ) * (maxx - minn) / 17)),
         List.replicate 18 byCast⟩)
  ∧ (∀ (flat : List Char) (n : Nat),
       containsSub basedOnLevel flat = true →
       (findNumbers (strip (replaceAll basedOnLevel [] flat))).length ≠ 2 →
       parse_flat flat n = .error .ambiguousValue)
  ∧ parse_flat ("0 to 17 (based on level)".toList) 5 =
      .ok ⟨'+', (List.range 18).map (fun i => .num ((i : ℚ))),
        List.replicate 18 byLevel⟩ := by
  refine ⟨parse_flat_level_formula, parse_flat_cast_formula, ?_, ?_⟩
  · intro flat n hlev hne
    unfold parse_flat
    rw [if_pos hlev]
    unfold parse_flat_interp
    cases hf : findNumbers (strip (replaceAll basedOnLevel [] flat)) with
    | nil => rfl
    | cons a t =>
      cases t with
      | nil => rfl
      | cons b t2 =>
        cases t2 with
        | nil =>
          rw [hf] at hne
          simp at hne
        | cons c t3 => rfl
  · rw [parse_flat_level_formula ("0 to 17 (based on level)".toList) 5
      ("0".toList) ("17".toList) 0 17 (by decide) (by decide) (by decide) (by decide)]
    congr 1
    refine congrArg (fun vs => AttributeModifier.mk '+' vs (List.replicate 18 byLevel)) ?_
    apply List.map_congr_left
    intro i _
    congr 1
    rw [zero_add, sub_zero, mul_div_assoc, div_self (by norm_num : (17 : ℚ) ≠ 0), mul_one]

/-- C3 witness: the level-interpolation law applied at the concrete
fragment `0 to 17 (based on level)`. -/
theorem claim_C3_witness :
    (containsSub basedOnLevel ("0 to 17 (based on level)".toList) = true ∧
     findNumbers (strip (replaceAll basedOnLevel []
       ("0 to 17 (based on level)".toList))) = ["0".toList, "17".toList] ∧
     evalNum ("0".toList) = some 0 ∧ evalNum ("17".toList) = some 17) ∧
    parse_flat ("0 to 17 (based on level)".toList) 5 =
      .ok ⟨'+',
        (List.range 18).map (fun i => .num ((0 : ℚ) + (i : ℚ) * ((17 : ℚ) - 0) / 17)),
        List.replicate 18 byLevel⟩ :=
  ⟨⟨by decide, by decide, by decide, by decide⟩,
    claim_C3.1 ("0 to 17 (based on level)".toList) 5 ("0".toList) ("17".toList) 0 17
      (by decide) (by decide) (by decide) (by decide)⟩

/-- Every successful `rscaling` match attempt returns a fragment of the
shape `(+` followed by a non-empty body and a closing parenthesis. -/
theorem matchScalingAt_shape (s m r : List Char)
    (h : matchScalingAt s = some (m, r)) :
    ∃ c b, m = '(' :: '+' :: c :: (b ++ [')']) := by
  unfold matchScalingAt at h
  split at h
  · rename_i a b c rest
    split at h
    · rename_i hcond
      cases hfc : findCloseParen rest with
      | none => rw [hfc] at h; exact Option.noConfusion h
      | some p =>
        rw [hfc] at h
        cases p with
        | mk pb pr =>
          injection h with h
          exact ⟨c, pb, (congrArg Prod.fst h).symm⟩
    · exact Option.noConfusion h
  · exact Option.noConfusion h

/-- Every fragment the scaling scanner emits has the `(+ … )` shape. -/
theorem goScalings_shape : ∀ (l : List Char) (k : Nat) (frag : List Char),
    frag ∈ goScalings l k → ∃ c b, frag = '(' :: '+' :: c :: (b ++ [')']) := by
  intro l
  induction l with
  | nil =>
    intro k frag h
    simp only [goScalings] at h
    cases h
  | cons x rest ih =>
    intro k frag h
    cases k with
    | succ k' => exact ih k' frag h
    | zero =>
      simp only [goScalings] at h
      split at h
      · rename_i m r hm
        cases h with
        | head => exact matchScalingAt_shape (x :: rest) frag r hm
        | tail _ h2 => exact ih _ frag h2
      · exact ih 0 frag h

/-- Stripping a string whose head is not whitespace keeps that head. -/
theorem rstrip_cons_head (c : Char) (l : List Char) (h : isSpace c = false) :
    ∃ r, rstrip (c :: l) = c :: r := by
  unfold rstrip
  split
  · exact ⟨[], by simp [h]⟩
  · exact ⟨_, rfl⟩

/-- Stripping a string whose head is not whitespace keeps that head. -/
theorem strip_cons_head (c : Char) (l : List Char) (h : isSpace c = false) :
    ∃ r, strip (c :: l) = c :: r := by
  unfold strip lstrip
  rw [List.dropWhile_cons]
  simp only [h, if_false, Bool.false_eq_true]
  exact rstrip_cons_head c l h

/-- C7 counterexample: a parenthesized fragment whose leading sign is `-`
is not extracted by the scaling regex at all — `rscaling` only matches
`(+` — and the whole parse of the span fails instead of building a
`-`-signed modifier. -/
theorem claim_C7_counterexample :
    findScalings ("Damage: 5 (- 10% AP)".toList) = [] ∧
    findScalings ("Damage: 5 (+ 10% AP)".toList) = ["(+ 10% AP)".toList] ∧
    from_string ("Damage".toList) ("Damage: 5 (- 10% AP)".toList) =
      .error .ambiguousValue := by
  decide

/-- C7 amended: only parenthesized fragments whose first character inside
the parentheses is `+` are extracted as scaling fragments; every extracted
fragment has the shape `(+…)`, and any modifier built from it carries the
sign `+`. A leading `-` is never recognized as a scaling fragment. -/
theorem claim_C7_amended : ∀ (s frag : List Char), frag ∈ findScalings s →
    (∃ c b, frag = '(' :: '+' :: c :: (b ++ [')'])) ∧
    (∀ (n : Nat) (m : AttributeModifier),
       parse_scaling frag n = .ok m → m.sign = '+') := by
  intro s frag hmem
  obtain ⟨c, b, hfrag⟩ := goScalings_shape s 0 frag hmem
  refine ⟨⟨c, b, hfrag⟩, ?_⟩
  intro n m h
  subst hfrag
  unfold parse_scaling at h
  have hlast : ('(' :: '+' :: c :: (b ++ [')'])).getLast? = some ')' := by
    show (('(' :: '+' :: c :: b) ++ [')']).getLast? = some ')'
    exact List.getLast?_concat _
  rw [if_pos ⟨rfl, hlast⟩] at h
  have hdl : (('(' :: '+' :: c :: (b ++ [')'])).drop 1).dropLast = '+' :: c :: b := by
    show (('+' :: c :: b) ++ [')']).dropLast = '+' :: c :: b
    exact List.dropLast_concat
  rw [hdl] at h
  obtain ⟨r, hr⟩ := strip_cons_head '+' (c :: b) (by decide)
  rw [hr] at h
  dsimp only at h
  split at h
  · exact Except.noConfusion h
  · injection h with h
    rw [← h]

/-- C7 witness: the fragment `(+ 10% AP)` is extracted and parses to a
`+`-signed modifier. -/
theorem claim_C7_witness :
    ("(+ 10% AP)".toList ∈ findScalings ("Damage: 5 (+ 10% AP)".toList)) ∧
    parse_scaling ("(+ 10% AP)".toList) 5 =
      .ok ⟨'+', List.replicate 5 (.num 10), List.replicate 5 ("% AP".toList)⟩ ∧
    (⟨'+', List.replicate 5 (.num 10), List.replicate 5 ("% AP".toList)⟩ :
      AttributeModifier).sign = '+' :=
  ⟨by decide, by decide,
    (claim_C7_amended ("Damage: 5 (+ 10% AP)".toList) ("(+ 10% AP)".toList)
        (by decide)).2 5 _ (by decide)⟩

/-- A successful substring search means the needle occurs at the reported
offset. -/
theorem indexOfSub_drop (m : List Char) : ∀ (l : List Char) (i : Nat),
    indexOfSub m l = some i → m.isPrefixOf (l.drop i) = true := by
  intro l
  induction l with
  | nil =>
    intro i h
    unfold indexOfSub at h
    split at h
    · rename_i hm
      injection h with h
      subst h
      subst hm
      rfl
    · exact Option.noConfusion h
  | cons c rest ih =>
    intro i h
    unfold indexOfSub at h
    split at h
    · rename_i hp
      injection h with h
      subst h
      exact hp
    · cases ho : indexOfSub m rest with
      | none => rw [ho] at h; exact Option.noConfusion h
      | some j =>
        rw [ho] at h
        simp only [Option.map_some'] at h
        injection h with h
        subst h
        exact ih j ho

/-- Characterization of the split loop of `_match_and_split`: it yields
one more span than the labels it walks, the no-label case returns the
whole remainder, and the last span begins exactly at an occurrence of the
last label. -/
theorem splitLoop_spec : ∀ (rest : List (List Char)) (prev cur : List Char)
    (splits : List (List Char)), splitLoop prev cur rest = some splits →
    splits.length = rest.length + 1 ∧
    (rest = [] → splits = [cur]) ∧
    (∀ ml, rest.getLast? = some ml →
       ∃ l, splits.getLast? = some l ∧ ml.isPrefixOf l = true) := by
  intro rest
  induction rest with
  | nil =>
    intro prev cur splits h
    unfold splitLoop at h
    injection h with h
    subst h
    refine ⟨rfl, fun _ => rfl, ?_⟩
    intro ml hml
    exact Option.noConfusion hml
  | cons m rest' ih =>
    intro prev cur splits h
    unfold splitLoop at h
    cases ho : indexOfSub m (cur.drop prev.length) with
    | none => rw [ho] at h; exact Option.noConfusion h
    | some start =>
      rw [ho] at h
      dsimp only at h
      cases ht : splitLoop m (cur.drop (prev.length + start)) rest' with
      | none => rw [ht] at h; exact Option.noConfusion h
      | some tail =>
        rw [ht] at h
        simp only [Option.map_some'] at h
        injection h with h
        subst h
        obtain ⟨hlen, hnil, hlast⟩ := ih m (cur.drop (prev.length + start)) tail ht
        have hpre : m.isPrefixOf (cur.drop (prev.length + start)) = true := by
          have hd := indexOfSub_drop m (cur.drop prev.length) start ho
          rwa [List.drop_drop] at hd
        refine ⟨?_, ?_, ?_⟩
        · simp [hlen]
        · intro hh
          cases hh
        · intro ml hml
          cases rest' with
          | nil =>
            have hml' : ml = m := by simpa using hml.symm
            have htail : tail = [cur.drop (prev.length + start)] := hnil rfl
            subst hml'
            subst htail
            exact ⟨cur.drop (prev.length + start), by simp, hpre⟩
          | cons m2 rest'' =>
            have hml2 : (m2 :: rest'').getLast? = some ml := by
              simpa [List.getLast?_cons_cons] using hml
            obtain ⟨l, hl, hp⟩ := hlast ml hml2
            cases htail : tail with
            | nil =>
              rw [htail] at hlen
              simp at hlen
            | cons t0 tt =>
              refine ⟨l, ?_, hp⟩
              rw [htail] at hl
              rw [List.getLast?_cons_cons]
              exact hl

/-- C5 counterexample: the owned span of the label `Damage` includes the
label and its colon — the segmenter returns `Damage: 5,`, not the text
from just after the colon up to the next label (` 5, ` or its stripped
form `5,`). -/
theorem claim_C5_counterexample :
    match_and_split ("Damage: 5, Cooldown: 3".toList) =
      .ok (["Damage".toList, "Cooldown".toList],
           ["Damage: 5,".toList, "Cooldown: 3".toList]) ∧
    ("Damage: 5,".toList : List Char) ≠ " 5, ".toList ∧
    ("Damage: 5,".toList : List Char) ≠ "5,".toList := by
  decide

/-- C5 amended: for an input with at least one label (and outside the
hard-coded unparsable strings and the Heimerdinger fix-up) the segmenter
returns one owned span per label in source order — parallel lists of
equal length — but each span begins at the start of its own label, label
and colon included, not just after the colon: with a single label the
span is the whole input string, and in general the last span runs
unstripped from an occurrence of the last label to the end of the
string. -/
theorem claim_C5_amended : ∀ (s m0 : List Char) (rest splits : List (List Char)),
    (findLabels s).map (fun m => m.dropLast) = m0 :: rest →
    splitLoop m0 s rest = some splits →
    splits ≠ heimerBad →
    s ≠ unparsable1 → s ≠ unparsable2 →
    match_and_split s = .ok (m0 :: rest, splits) ∧
    splits.length = (m0 :: rest).length ∧
    (rest = [] → splits = [s]) ∧
    (∀ ml, rest.getLast? = some ml →
       ∃ l, splits.getLast? = some l ∧ ml.isPrefixOf l = true) := by
  intro s m0 rest splits hlab hloop hhb h1 h2
  obtain ⟨hlen, hnil, hlast⟩ := splitLoop_spec rest m0 s splits hloop
  refine ⟨?_, by simp [hlen], hnil, hlast⟩
  unfold match_and_split
  rw [if_neg h1, if_neg h2, hlab]
  dsimp only
  rw [hloop]
  dsimp only
  rw [if_neg hhb]

/-- C5 witness: the amended claim at the concrete two-label input. -/
theorem claim_C5_witness :
    ((findLabels ("Damage: 5, Cooldown: 3".toList)).map (fun m => m.dropLast) =
       ["Damage".toList, "Cooldown".toList] ∧
     splitLoop ("Damage".toList) ("Damage: 5, Cooldown: 3".toList)
       ["Cooldown".toList] = some ["Damage: 5,".toList, "Cooldown: 3".toList]) ∧
    match_and_split ("Damage: 5, Cooldown: 3".toList) =
      .ok (["Damage".toList, "Cooldown".toList],
           ["Damage: 5,".toList, "Cooldown: 3".toList]) :=
  ⟨⟨by decide, by decide⟩,
    (claim_C5_amended ("Damage: 5, Cooldown: 3".toList) ("Damage".toList)
        ["Cooldown".toList] ["Damage: 5,".toList, "Cooldown: 3".toList]
        (by decide) (by decide) (by decide) (by decide) (by decide)).1⟩
